import Mathlib

/-!
Verification of the diff-parser / review-comment-mapper core of the
self-healing-ci repository (`src/buildmedic.ts`, function
`postReviewFromDirtyChanges`).

The mapper (file loop, exclusion rule, path resolution, comment
construction, empty-result handling) is embedded from the source of
`postReviewFromDirtyChanges`.  The unified-diff parser is the external
`diffparser` library, whose source is not part of the repository; it is
modelled from the specification (two-cursor line classification,
count-driven hunk bodies, `MalformedDiff` errors carrying the offending
line and its position).
-/

/-- Side of a review comment, `'LEFT' | 'RIGHT'` in the source. -/
inductive Side where
  | LEFT
  | RIGHT
deriving DecidableEq

/-- Kind of a line change: context, addition or deletion. -/
inductive Kind where
  | Context
  | Addition
  | Deletion
deriving DecidableEq

/-- One physical line inside a hunk.  `content` is the line text with the
leading marker stripped; `oldLine` is present for context/deletion,
`newLine` for context/addition (absence is expressed by the constructor). -/
inductive LineChange where
  | context (content : String) (oldLine newLine : Nat)
  | addition (content : String) (newLine : Nat)
  | deletion (content : String) (oldLine : Nat)
deriving DecidableEq

/-- The kind of a `LineChange`. -/
def LineChange.kind : LineChange → Kind
  | .context _ _ _ => Kind.Context
  | .addition _ _ => Kind.Addition
  | .deletion _ _ => Kind.Deletion

/-- The resolved old-file line number, when present. -/
def LineChange.oldLine? : LineChange → Option Nat
  | .context _ o _ => some o
  | .deletion _ o => some o
  | .addition _ _ => none

/-- The resolved new-file line number, when present. -/
def LineChange.newLine? : LineChange → Option Nat
  | .context _ _ n => some n
  | .addition _ n => some n
  | .deletion _ _ => none

/-- A hunk: header numbers plus the classified body lines.  The source
calls the hunk list of a file `chunks` and its body `changes`. -/
structure Hunk where
  oldStart : Nat
  oldCount : Nat
  newStart : Nat
  newCount : Nat
  changes : List LineChange
deriving DecidableEq

/-- One file's change set.  Field names follow the source's `file.from` /
`file.to` / `file.chunks` (with `Path` appended since `from` is a keyword).
The null-path sentinel is the string `"/dev/null"`, exactly as the source
compares it (`file.to === '/dev/null'`). -/
structure FileDiff where
  fromPath : String
  toPath : String
  chunks : List Hunk
deriving DecidableEq

/-- The sentinel path marking an absent file side. -/
def NULL_PATH : String := "/dev/null"

/-- A review comment, `{ path, line, side, body }` in the source. -/
structure ReviewComment where
  path : String
  line : Nat
  side : Side
  body : String
deriving DecidableEq

/-- Modelled from the spec: the `MalformedDiff` failure of the missing
`diffparser` dependency, carrying the offending line's content and its
position (file index, hunk index, in-hunk line offset). -/
structure MalformedDiff where
  line : String
  fileIndex : Nat
  hunkIndex : Nat
  lineOffset : Nat
deriving DecidableEq

/-- Hunk-local parse error: offending line content and in-hunk offset. -/
structure HunkErr where
  line : String
  offset : Nat
deriving DecidableEq

/-- Drops the prefix `p` from `cs`, or `none` when `p` is not a prefix. -/
def dropPref : List Char → List Char → Option (List Char)
  | [], cs => some cs
  | _ :: _, [] => none
  | p :: ps, c :: cs => if c = p then dropPref ps cs else none

/-- Whether string `s` starts with the string `p`. -/
def hasPrefS (p s : String) : Bool := (dropPref p.data s.data).isSome

/-- Whether a character is a decimal digit. -/
def isDig (c : Char) : Bool := 48 ≤ c.toNat && c.toNat ≤ 57

/-- Numeric value of a digit list. -/
def digitsVal (cs : List Char) : Nat :=
  cs.foldl (fun n c => n * 10 + (c.toNat - 48)) 0

/-- Modelled from the spec: parse `<num>[,<num>]` with the count
defaulting to 1 when omitted, returning the remaining characters. -/
def parsePair (cs : List Char) : Option (Nat × Nat × List Char) :=
  let ds := cs.takeWhile isDig
  let r1 := cs.dropWhile isDig
  if ds = [] then none
  else
    match r1 with
    | ',' :: r2 =>
      let ds2 := r2.takeWhile isDig
      let r3 := r2.dropWhile isDig
      if ds2 = [] then none else some (digitsVal ds, digitsVal ds2, r3)
    | _ => some (digitsVal ds, 1, r1)

/-- Modelled from the spec: parse a hunk header
`@@ -<oldStart>[,<oldCount>] +<newStart>[,<newCount>] @@`, rejecting a
non-positive start whose corresponding count is nonzero.  Returns
`(oldStart, oldCount, newStart, newCount)`. -/
def parseHunkHeader (s : String) : Option (Nat × Nat × Nat × Nat) :=
  match dropPref "@@ -".data s.data with
  | none => none
  | some r0 =>
    match parsePair r0 with
    | none => none
    | some (os, ocnt, r1) =>
      match dropPref " +".data r1 with
      | none => none
      | some r2 =>
        match parsePair r2 with
        | none => none
        | some (ns, ncnt, r3) =>
          match dropPref " @@".data r3 with
          | none => none
          | some _ =>
            if (ocnt ≠ 0 ∧ os = 0) ∨ (ncnt ≠ 0 ∧ ns = 0) then none
            else some (os, ocnt, ns, ncnt)

/-- Classification of a hunk-body line by its leading character: context
(space), addition (`+`), deletion (`-`), no-newline marker (backslash),
or invalid.  The payload is the line with the marker stripped. -/
inductive LineHead where
  | sp (cs : List Char)
  | plus (cs : List Char)
  | minus (cs : List Char)
  | back
  | bad
deriving DecidableEq

/-- Reads the leading marker character of a hunk-body line. -/
def lineHead (l : String) : LineHead :=
  match l.data with
  | ' ' :: cs => .sp cs
  | '+' :: cs => .plus cs
  | '-' :: cs => .minus cs
  | '\\' :: _ => .back
  | _ => .bad

/-- Whether a hunk-body line starts with a valid marker character
(space, `+`, `-`, or the no-newline marker backslash). -/
def headValid (l : String) : Bool :=
  match lineHead l with
  | .bad => false
  | _ => true

/-- How many old-file lines a body line consumes (1 for context and
deletion, 0 otherwise). -/
def oldUse (l : String) : Nat :=
  match lineHead l with
  | .sp _ => 1
  | .minus _ => 1
  | _ => 0

/-- How many new-file lines a body line consumes (1 for context and
addition, 0 otherwise). -/
def newUse (l : String) : Nat :=
  match lineHead l with
  | .sp _ => 1
  | .plus _ => 1
  | _ => 0

/-- Modelled from the spec: the two-cursor hunk-body scan of the missing
`diffparser` dependency.  `oldCur`/`newCur` are the running cursors,
`oldRem`/`newRem` the line counts still owed to the header, `off` the
in-hunk offset of the next line.  A space line becomes a `context` change
and consumes both sides; `+` an `addition` consuming the new side; `-` a
`deletion` consuming the old side; a backslash line is skipped; any other
line, or a count running out of step with the body, is a `HunkErr`
carrying the offending line and offset. -/
def parseHunkBody : List String → Nat → Nat → Nat → Nat → Nat →
    Except HunkErr (List LineChange)
  | [], _, _, 0, 0, _ => .ok []
  | [], _, _, _, _, off => .error ⟨"", off⟩
  | l :: rest, oldCur, newCur, oldRem, newRem, off =>
    match lineHead l with
    | .sp cs =>
      match oldRem, newRem with
      | a + 1, b + 1 =>
        (parseHunkBody rest (oldCur + 1) (newCur + 1) a b (off + 1)).map
          (fun r => .context ⟨cs⟩ oldCur newCur :: r)
      | _, _ => .error ⟨l, off⟩
    | .plus cs =>
      match newRem with
      | b + 1 =>
        (parseHunkBody rest oldCur (newCur + 1) oldRem b (off + 1)).map
          (fun r => .addition ⟨cs⟩ newCur :: r)
      | 0 => .error ⟨l, off⟩
    | .minus cs =>
      match oldRem with
      | a + 1 =>
        (parseHunkBody rest (oldCur + 1) newCur a newRem (off + 1)).map
          (fun r => .deletion ⟨cs⟩ oldCur :: r)
      | 0 => .error ⟨l, off⟩
    | .back => parseHunkBody rest oldCur newCur oldRem newRem (off + 1)
    | .bad => .error ⟨l, off⟩

/-- Splits a line list into sections, each headed by a line satisfying
`p`; lines before the first marker are dropped. -/
def splitAll (p : String → Bool) (lines : List String) :
    List (String × List String) :=
  (lines.foldr
    (fun l acc =>
      if p l then (([] : List String), (l, acc.1) :: acc.2)
      else (l :: acc.1, acc.2))
    ([], [])).2

/-- Modelled from the spec: turn a `---`/`+++` path token into the stored
path — the null device stays the `NULL_PATH` sentinel, and a `a/` or `b/`
prefix is stripped. -/
def pathTok (s : String) : String :=
  if s = "/dev/null" then NULL_PATH
  else
    match s.data with
    | 'a' :: '/' :: r => ⟨r⟩
    | 'b' :: '/' :: r => ⟨r⟩
    | _ => s

/-- Modelled from the spec: scan the metadata lines of a file section,
recording the `--- ` and `+++ ` path lines; other metadata is skipped. -/
def metaPaths : List String → String → String → String × String
  | [], fp, tp => (fp, tp)
  | l :: rest, fp, tp =>
    match dropPref "--- ".data l.data with
    | some r => metaPaths rest (pathTok ⟨r⟩) tp
    | none =>
      match dropPref "+++ ".data l.data with
      | some r => metaPaths rest fp (pathTok ⟨r⟩)
      | none => metaPaths rest fp tp

/-- Modelled from the spec: parse the hunk sections of one file, in
order, decorating errors with the hunk index `hi` and file index `fi`. -/
def parseHunkSections : List (String × List String) → Nat → Nat →
    Except MalformedDiff (List Hunk)
  | [], _, _ => .ok []
  | (header, body) :: rest, hi, fi =>
    match parseHunkHeader header with
    | none => .error ⟨header, fi, hi, 0⟩
    | some (os, ocnt, ns, ncnt) =>
      match parseHunkBody body os ns ocnt ncnt 1 with
      | .error e => .error ⟨e.line, fi, hi, e.offset⟩
      | .ok chs =>
        match parseHunkSections rest (hi + 1) fi with
        | .error e => .error e
        | .ok hs => .ok (⟨os, ocnt, ns, ncnt, chs⟩ :: hs)

/-- Modelled from the spec: parse one `diff --git` file section — the
metadata lines up to the first `@@` line give the paths, the rest is
split into hunk sections. -/
def parseFileSection (fi : Nat) (sec : String × List String) :
    Except MalformedDiff FileDiff :=
  let meta := sec.2.takeWhile (fun l => !(hasPrefS "@@" l))
  let hunkLines := sec.2.dropWhile (fun l => !(hasPrefS "@@" l))
  let ps := metaPaths meta "" ""
  match parseHunkSections (splitAll (hasPrefS "@@") hunkLines) 0 fi with
  | .error e => .error e
  | .ok hs => .ok ⟨ps.1, ps.2, hs⟩

/-- Modelled from the spec: parse every file section in order, counting
the file index for error decoration. -/
def parseFileSections : List (String × List String) → Nat →
    Except MalformedDiff (List FileDiff)
  | [], _ => .ok []
  | s :: rest, fi =>
    match parseFileSection fi s with
    | .error e => .error e
    | .ok fd =>
      match parseFileSections rest (fi + 1) with
      | .error e => .error e
      | .ok fds => .ok (fd :: fds)

/-- Splits a text into its lines at newline characters. -/
def splitLines (text : String) : List String :=
  let r := text.data.foldr
    (fun c (acc : List Char × List String) =>
      if c = '\n' then ([], String.mk acc.1 :: acc.2)
      else (c :: acc.1, acc.2))
    ([], [])
  String.mk r.1 :: r.2

/-- Drops a final empty line (the artifact of a trailing newline). -/
def dropLastEmpty (lines : List String) : List String :=
  if lines.getLast? = some "" then lines.dropLast else lines

/-- Modelled from the spec: the whole diff parser standing in for the
missing `diffparser` dependency.  Empty input yields the empty file list;
a malformed hunk yields a `MalformedDiff` carrying the offending line and
its position. -/
def parse (text : String) : Except MalformedDiff (List FileDiff) :=
  parseFileSections
    (splitAll (hasPrefS "diff --git") (dropLastEmpty (splitLines text))) 0

instance {ε α : Type} [DecidableEq ε] [DecidableEq α] : DecidableEq (Except ε α) := fun a b =>
  match a, b with
  | .ok x, .ok y =>
    if h : x = y then .isTrue (by rw [h])
    else .isFalse (by intro hh; cases hh; exact h rfl)
  | .error x, .error y =>
    if h : x = y then .isTrue (by rw [h])
    else .isFalse (by intro hh; cases hh; exact h rfl)
  | .ok _, .error _ => .isFalse (by intro hh; cases hh)
  | .error _, .ok _ => .isFalse (by intro hh; cases hh)

example : parse "" = .ok [] := by decide

example :
    parse "diff --git a/f b/f\n--- a/f\n+++ b/f\n@@ -10,3 +10,4 @@\n foo\n-bar\n+baz\n+qux\n end\n" =
      .ok [⟨"f", "f", [⟨10, 3, 10, 4,
        [.context "foo" 10 10, .deletion "bar" 11, .addition "baz" 11,
         .addition "qux" 12, .context "end" 12 13]⟩]⟩] := by decide

/-- Body of an addition comment, embedded from the source: a fenced
suggestion block around the content with the regex-anchored replacement
removing at most one leading plus character (buildmedic.ts line 71). -/
def suggestionBody (content : String) : String :=
  "```suggestion\n" ++
    (match content.data with
     | '+' :: cs => String.mk cs
     | _ => content) ++ "\n```"

/-- Path a file's comments attach to, embedded from the source line
`const path = file.to || file.from` (JavaScript falsiness: the empty
string falls back to the original path). -/
def filePath (f : FileDiff) : String :=
  if f.toPath = "" then f.fromPath else f.toPath

/-- One iteration of the source's change loop: `if (change.add)` pushes a
`RIGHT` suggestion comment at `newLine`, `else if (change.del)` pushes a
`LEFT` empty-bodied comment at `oldLine`, and context lines push
nothing. -/
def pushChange (path : String) (acc : List ReviewComment) :
    LineChange → List ReviewComment
  | .addition content newLine =>
    acc ++ [⟨path, newLine, Side.RIGHT, suggestionBody content⟩]
  | .deletion _ oldLine => acc ++ [⟨path, oldLine, Side.LEFT, ""⟩]
  | .context _ _ _ => acc

/-- The comment-collection loop of `postReviewFromDirtyChanges`
(buildmedic.ts lines 57-84): iterate the files in order, skip a file
whose `to` path is exactly `'/dev/null'`, and push one comment per
addition or deletion of every chunk, in order. -/
def postComments (files : List FileDiff) : List ReviewComment :=
  files.foldl
    (fun acc f =>
      if f.toPath = NULL_PATH then acc
      else f.chunks.foldl
        (fun acc2 ch => ch.changes.foldl (pushChange (filePath f)) acc2) acc)
    []

/-- Modelled from the spec: the per-change comment policy table of §4.2 —
`Addition ↦ (Right, newLine, suggestion block)`,
`Deletion ↦ (Left, oldLine, empty body)`, `Context ↦ nothing`. -/
def specComment (path : String) : LineChange → Option ReviewComment
  | .addition content newLine =>
    some ⟨path, newLine, Side.RIGHT, suggestionBody content⟩
  | .deletion _ oldLine => some ⟨path, oldLine, Side.LEFT, ""⟩
  | .context _ _ _ => none

/-- Modelled from the spec: the ordered comment sequence of one
non-excluded file — every hunk's changes in order through the policy
table. -/
def specFileComments (f : FileDiff) : List ReviewComment :=
  f.chunks.flatMap (fun ch => ch.changes.filterMap (specComment (filePath f)))

/-- Whether a text is blank, embedding the source's `!diff.trim()`. -/
def isBlank (s : String) : Bool :=
  s.data.all (fun c => c = ' ' || c = '\n' || c = '\t' || c = '\r')

/-- The default overall review message of the source. -/
def defaultReviewBody : String :=
  "Automated review from BuildMedic with suggested fixes 🛠️"

/-- Outcome of `postReviewFromDirtyChanges`: an early return with its
logged reason (no submission), a posted review (overall body plus inline
comments), or a parse failure. -/
inductive ReviewOutcome where
  | skipped (log : String)
  | posted (body : String) (comments : List ReviewComment)
  | failed (e : MalformedDiff)
deriving DecidableEq

/-- Embedding of the `postReviewFromDirtyChanges` control flow around the
mapper (buildmedic.ts lines 49-101): blank diff → early return; parse;
empty comment list → early return; otherwise submit the review with the
given or default message. -/
def postReview (diffText : String) (message : Option String) : ReviewOutcome :=
  if isBlank diffText then .skipped "No changes to comment on"
  else
    match parse diffText with
    | .error e => .failed e
    | .ok files =>
      let comments := postComments files
      if comments.isEmpty then .skipped "No additions or deletions to comment on"
      else .posted (message.getD defaultReviewBody) comments

/-- Whether an outcome submits anything to the review API. -/
def ReviewOutcome.submits : ReviewOutcome → Bool
  | .posted _ _ => true
  | _ => false

example :
    postComments [⟨"old.txt", "nul", [⟨1, 1, 0, 0, [.deletion "gone" 1]⟩]⟩] =
      [⟨"nul", 1, Side.LEFT, ""⟩] := by decide

example :
    parse "diff --git a/old.txt b/old.txt\n--- a/old.txt\n+++ nul\n@@ -1,1 +0,0 @@\n-gone\n" =
      .ok [⟨"old.txt", "nul", [⟨1, 1, 0, 0, [.deletion "gone" 1]⟩]⟩] := by decide

example :
    parse "diff --git a/f b/f\n@@ -1,2 +1,2 @@\n a\n" =
      .error ⟨"", 0, 0, 2⟩ := by decide

example :
    postReview "diff --git a/f b/f\n--- a/f\n+++ b/f\n@@ -1,1 +1,1 @@\n x\n" none =
      .skipped "No additions or deletions to comment on" := by decide

example : postReview "" none = .skipped "No changes to comment on" := by decide

example :
    parse "diff --git a/f b/f\n--- a/f\n+++ /dev/null\n@@ -1,2 +0,0 @@\n-x\n-y\n" =
      .ok [⟨"f", "/dev/null", [⟨1, 2, 0, 0, [.deletion "x" 1, .deletion "y" 2]⟩]⟩] := by decide

theorem exceptMap_eq_ok {ε α β : Type} (f : α → β) (e : Except ε α) (b : β) :
    e.map f = .ok b ↔ ∃ a, e = .ok a ∧ f a = b := by
  cases e <;> simp [Except.map]

theorem pushChange_eq (path : String) (acc : List ReviewComment)
    (ch : LineChange) :
    pushChange path acc ch = acc ++ (specComment path ch).toList := by
  cases ch <;> simp [pushChange, specComment]

theorem foldl_pushChange (path : String) (changes : List LineChange) :
    ∀ acc, changes.foldl (pushChange path) acc =
      acc ++ changes.filterMap (specComment path) := by
  induction changes with
  | nil => intro acc; simp
  | cons c cs ih =>
    intro acc
    rw [List.foldl_cons, ih, pushChange_eq, List.filterMap_cons]
    cases hc : specComment path c <;> simp [hc]

theorem foldl_chunks (p : String) (chunks : List Hunk) :
    ∀ acc, chunks.foldl
        (fun acc2 ch => ch.changes.foldl (pushChange p) acc2) acc =
      acc ++ chunks.flatMap (fun ch => ch.changes.filterMap (specComment p)) := by
  induction chunks with
  | nil => intro acc; simp
  | cons ch chs ih =>
    intro acc
    rw [List.foldl_cons, ih, foldl_pushChange]
    simp

theorem postComments_eq_aux (files : List FileDiff) :
    ∀ acc, files.foldl
        (fun acc f =>
          if f.toPath = NULL_PATH then acc
          else f.chunks.foldl
            (fun acc2 ch => ch.changes.foldl (pushChange (filePath f)) acc2)
            acc)
        acc =
      acc ++ (files.filter
        (fun f => decide (f.toPath ≠ NULL_PATH))).flatMap specFileComments := by
  induction files with
  | nil => intro acc; simp
  | cons f fs ih =>
    intro acc
    rw [List.foldl_cons]
    by_cases hf : f.toPath = NULL_PATH
    · rw [if_pos hf, ih]
      simp [List.filter_cons, hf]
    · rw [if_neg hf, foldl_chunks, ih]
      simp [List.filter_cons, hf, specFileComments]

theorem postComments_eq (files : List FileDiff) :
    postComments files =
      (files.filter (fun f => decide (f.toPath ≠ NULL_PATH))).flatMap
        specFileComments := by
  rw [postComments, postComments_eq_aux]
  simp

theorem parseHunkBody_ok_ranges :
    ∀ (lines : List String) (oldCur newCur oldRem newRem off : Nat)
      (chs : List LineChange),
      parseHunkBody lines oldCur newCur oldRem newRem off = .ok chs →
      chs.filterMap LineChange.oldLine? = List.range' oldCur oldRem ∧
      chs.filterMap LineChange.newLine? = List.range' newCur newRem := by
  intro lines
  induction lines with
  | nil =>
    intro oc nc a b off chs h
    cases a with
    | zero =>
      cases b with
      | zero =>
        simp only [parseHunkBody, Except.ok.injEq] at h
        subst h
        simp [List.range']
      | succ b' => simp [parseHunkBody] at h
    | succ a' => simp [parseHunkBody] at h
  | cons l rest ih =>
    intro oc nc a b off chs h
    cases hl : lineHead l with
    | sp cs =>
      simp only [parseHunkBody, hl] at h
      cases a with
      | zero => simp at h
      | succ a' =>
        cases b with
        | zero => simp at h
        | succ b' =>
          rw [exceptMap_eq_ok] at h
          obtain ⟨r, hr, hf⟩ := h
          subst hf
          obtain ⟨ho, hn⟩ := ih (oc + 1) (nc + 1) a' b' (off + 1) r hr
          refine ⟨?_, ?_⟩
          · simp [List.filterMap_cons, LineChange.oldLine?, ho, List.range'_succ]
          · simp [List.filterMap_cons, LineChange.newLine?, hn, List.range'_succ]
    | plus cs =>
      simp only [parseHunkBody, hl] at h
      cases b with
      | zero => simp at h
      | succ b' =>
        rw [exceptMap_eq_ok] at h
        obtain ⟨r, hr, hf⟩ := h
        subst hf
        obtain ⟨ho, hn⟩ := ih oc (nc + 1) a b' (off + 1) r hr
        refine ⟨?_, ?_⟩
        · simp [List.filterMap_cons, LineChange.oldLine?, ho]
        · simp [List.filterMap_cons, LineChange.newLine?, hn, List.range'_succ]
    | minus cs =>
      simp only [parseHunkBody, hl] at h
      cases a with
      | zero => simp at h
      | succ a' =>
        rw [exceptMap_eq_ok] at h
        obtain ⟨r, hr, hf⟩ := h
        subst hf
        obtain ⟨ho, hn⟩ := ih (oc + 1) nc a' b (off + 1) r hr
        refine ⟨?_, ?_⟩
        · simp [List.filterMap_cons, LineChange.oldLine?, ho, List.range'_succ]
        · simp [List.filterMap_cons, LineChange.newLine?, hn]
    | back =>
      simp only [parseHunkBody, hl] at h
      exact ih oc nc a b (off + 1) chs h
    | bad => simp [parseHunkBody, hl] at h

theorem length_filterMap_eq_countP {α β : Type} (f : α → Option β)
    (l : List α) :
    (l.filterMap f).length = l.countP (fun a => (f a).isSome) := by
  induction l with
  | nil => rfl
  | cons a as ih =>
    rw [List.filterMap_cons]
    cases hfa : f a <;> simp [List.countP_cons, hfa, ih]

theorem oldLine_isSome_iff (c : LineChange) :
    (LineChange.oldLine? c).isSome = true ↔
      (c.kind = Kind.Context ∨ c.kind = Kind.Deletion) := by
  cases c <;> simp [LineChange.oldLine?, LineChange.kind]

theorem newLine_isSome_iff (c : LineChange) :
    (LineChange.newLine? c).isSome = true ↔
      (c.kind = Kind.Context ∨ c.kind = Kind.Addition) := by
  cases c <;> simp [LineChange.newLine?, LineChange.kind]

theorem parseHunkBody_counts (lines : List String)
    (oldCur newCur oldRem newRem off : Nat) (chs : List LineChange)
    (h : parseHunkBody lines oldCur newCur oldRem newRem off = .ok chs) :
    chs.countP (fun c => decide (c.kind = Kind.Context ∨ c.kind = Kind.Deletion)) =
        oldRem ∧
      chs.countP (fun c => decide (c.kind = Kind.Context ∨ c.kind = Kind.Addition)) =
        newRem := by
  obtain ⟨ho, hn⟩ := parseHunkBody_ok_ranges lines oldCur newCur oldRem newRem off chs h
  constructor
  · have h1 := length_filterMap_eq_countP LineChange.oldLine? chs
    rw [ho, List.length_range'] at h1
    calc chs.countP (fun c => decide (c.kind = Kind.Context ∨ c.kind = Kind.Deletion))
        = chs.countP (fun a => (LineChange.oldLine? a).isSome) :=
          List.countP_congr (fun c _ => by simp [oldLine_isSome_iff])
      _ = oldRem := h1.symm
  · have h1 := length_filterMap_eq_countP LineChange.newLine? chs
    rw [hn, List.length_range'] at h1
    calc chs.countP (fun c => decide (c.kind = Kind.Context ∨ c.kind = Kind.Addition))
        = chs.countP (fun a => (LineChange.newLine? a).isSome) :=
          List.countP_congr (fun c _ => by simp [newLine_isSome_iff])
      _ = newRem := h1.symm

theorem parseHunkBody_ok_iff :
    ∀ (lines : List String) (oc nc a b off : Nat),
      (∃ chs, parseHunkBody lines oc nc a b off = .ok chs) ↔
      (lines.all headValid = true ∧ (lines.map oldUse).sum = a ∧
        (lines.map newUse).sum = b) := by
  intro lines
  induction lines with
  | nil =>
    intro oc nc a b off
    constructor
    · rintro ⟨chs, h⟩
      cases a with
      | zero =>
        cases b with
        | zero => simp
        | succ b' => simp [parseHunkBody] at h
      | succ a' => simp [parseHunkBody] at h
    · rintro ⟨-, ha, hb⟩
      simp only [List.map_nil, List.sum_nil] at ha hb
      subst ha
      subst hb
      exact ⟨[], by simp [parseHunkBody]⟩
  | cons l rest ih =>
    intro oc nc a b off
    cases hl : lineHead l with
    | sp cs =>
      constructor
      · rintro ⟨chs, h⟩
        simp only [parseHunkBody, hl] at h
        cases a with
        | zero => simp at h
        | succ a' =>
          cases b with
          | zero => simp at h
          | succ b' =>
            rw [exceptMap_eq_ok] at h
            obtain ⟨r, hr, -⟩ := h
            obtain ⟨hall, hsa, hsb⟩ :=
              (ih (oc + 1) (nc + 1) a' b' (off + 1)).mp ⟨r, hr⟩
            refine ⟨by simp [List.all_cons, headValid, hl, hall], ?_, ?_⟩
            · simp only [List.map_cons, List.sum_cons, oldUse, hl]
              rw [hsa]; omega
            · simp only [List.map_cons, List.sum_cons, newUse, hl]
              rw [hsb]; omega
      · rintro ⟨hall, hsa, hsb⟩
        rw [List.all_cons, Bool.and_eq_true] at hall
        simp only [List.map_cons, List.sum_cons, oldUse, newUse, hl] at hsa hsb
        obtain rfl : a = (rest.map oldUse).sum + 1 := by omega
        obtain rfl : b = (rest.map newUse).sum + 1 := by omega
        obtain ⟨r, hr⟩ :=
          (ih (oc + 1) (nc + 1) (rest.map oldUse).sum (rest.map newUse).sum
            (off + 1)).mpr ⟨hall.2, rfl, rfl⟩
        exact ⟨_, by simp only [parseHunkBody, hl]; rw [hr]; rfl⟩
    | plus cs =>
      constructor
      · rintro ⟨chs, h⟩
        simp only [parseHunkBody, hl] at h
        cases b with
        | zero => simp at h
        | succ b' =>
          rw [exceptMap_eq_ok] at h
          obtain ⟨r, hr, -⟩ := h
          obtain ⟨hall, hsa, hsb⟩ := (ih oc (nc + 1) a b' (off + 1)).mp ⟨r, hr⟩
          refine ⟨by simp [List.all_cons, headValid, hl, hall], ?_, ?_⟩
          · simp only [List.map_cons, List.sum_cons, oldUse, hl]
            rw [hsa]; omega
          · simp only [List.map_cons, List.sum_cons, newUse, hl]
            rw [hsb]; omega
      · rintro ⟨hall, hsa, hsb⟩
        rw [List.all_cons, Bool.and_eq_true] at hall
        simp only [List.map_cons, List.sum_cons, oldUse, newUse, hl] at hsa hsb
        obtain rfl : a = (rest.map oldUse).sum := by omega
        obtain rfl : b = (rest.map newUse).sum + 1 := by omega
        obtain ⟨r, hr⟩ :=
          (ih oc (nc + 1) (rest.map oldUse).sum (rest.map newUse).sum
            (off + 1)).mpr ⟨hall.2, rfl, rfl⟩
        exact ⟨_, by simp only [parseHunkBody, hl]; rw [hr]; rfl⟩
    | minus cs =>
      constructor
      · rintro ⟨chs, h⟩
        simp only [parseHunkBody, hl] at h
        cases a with
        | zero => simp at h
        | succ a' =>
          rw [exceptMap_eq_ok] at h
          obtain ⟨r, hr, -⟩ := h
          obtain ⟨hall, hsa, hsb⟩ := (ih (oc + 1) nc a' b (off + 1)).mp ⟨r, hr⟩
          refine ⟨by simp [List.all_cons, headValid, hl, hall], ?_, ?_⟩
          · simp only [List.map_cons, List.sum_cons, oldUse, hl]
            rw [hsa]; omega
          · simp only [List.map_cons, List.sum_cons, newUse, hl]
            rw [hsb]; omega
      · rintro ⟨hall, hsa, hsb⟩
        rw [List.all_cons, Bool.and_eq_true] at hall
        simp only [List.map_cons, List.sum_cons, oldUse, newUse, hl] at hsa hsb
        obtain rfl : a = (rest.map oldUse).sum + 1 := by omega
        obtain rfl : b = (rest.map newUse).sum := by omega
        obtain ⟨r, hr⟩ :=
          (ih (oc + 1) nc (rest.map oldUse).sum (rest.map newUse).sum
            (off + 1)).mpr ⟨hall.2, rfl, rfl⟩
        exact ⟨_, by simp only [parseHunkBody, hl]; rw [hr]; rfl⟩
    | back =>
      constructor
      · rintro ⟨chs, h⟩
        simp only [parseHunkBody, hl] at h
        obtain ⟨hall, hsa, hsb⟩ := (ih oc nc a b (off + 1)).mp ⟨chs, h⟩
        refine ⟨by simp [List.all_cons, headValid, hl, hall], ?_, ?_⟩
        · simp only [List.map_cons, List.sum_cons, oldUse, hl]
          rw [hsa]; omega
        · simp only [List.map_cons, List.sum_cons, newUse, hl]
          rw [hsb]; omega
      · rintro ⟨hall, hsa, hsb⟩
        rw [List.all_cons, Bool.and_eq_true] at hall
        simp only [List.map_cons, List.sum_cons, oldUse, newUse, hl] at hsa hsb
        obtain rfl : a = (rest.map oldUse).sum := by omega
        obtain rfl : b = (rest.map newUse).sum := by omega
        obtain ⟨r, hr⟩ :=
          (ih oc nc (rest.map oldUse).sum (rest.map newUse).sum
            (off + 1)).mpr ⟨hall.2, rfl, rfl⟩
        exact ⟨r, by simp only [parseHunkBody, hl]; exact hr⟩
    | bad =>
      constructor
      · rintro ⟨chs, h⟩
        simp [parseHunkBody, hl] at h
      · rintro ⟨hall, -, -⟩
        rw [List.all_cons, Bool.and_eq_true] at hall
        have : headValid l = false := by simp [headValid, hl]
        rw [hall.1] at this
        cases this

theorem parseHunkSections_mem :
    ∀ (secs : List (String × List String)) (hi fi : Nat) (hs : List Hunk),
      parseHunkSections secs hi fi = .ok hs → ∀ h ∈ hs,
      ∃ body, parseHunkBody body h.oldStart h.newStart h.oldCount h.newCount 1 =
        .ok h.changes := by
  intro secs
  induction secs with
  | nil =>
    intro hi fi hs hok h hmem
    simp only [parseHunkSections, Except.ok.injEq] at hok
    subst hok
    simp at hmem
  | cons sec rest ih =>
    intro hi fi hs hok h hmem
    obtain ⟨header, body⟩ := sec
    cases hph : parseHunkHeader header with
    | none =>
      simp only [parseHunkSections, hph] at hok
      exact absurd hok (by simp)
    | some q =>
      obtain ⟨os, ocnt, ns, ncnt⟩ := q
      cases hb : parseHunkBody body os ns ocnt ncnt 1 with
      | error e =>
        simp only [parseHunkSections, hph, hb] at hok
        exact absurd hok (by simp)
      | ok chs =>
        cases hr : parseHunkSections rest (hi + 1) fi with
        | error e2 =>
          simp only [parseHunkSections, hph, hb, hr] at hok
          exact absurd hok (by simp)
        | ok hs' =>
          simp only [parseHunkSections, hph, hb, hr, Except.ok.injEq] at hok
          subst hok
          rcases List.mem_cons.mp hmem with heq | hmem'
          · subst heq
            exact ⟨body, hb⟩
          · exact ih (hi + 1) fi hs' hr h hmem'

theorem parseFileSection_chunks (fi : Nat) (sec : String × List String)
    (fd : FileDiff) (h : parseFileSection fi sec = .ok fd) :
    ∃ secs hi, parseHunkSections secs hi fi = .ok fd.chunks := by
  cases hps : parseHunkSections
      (splitAll (hasPrefS "@@")
        (sec.2.dropWhile (fun l => !(hasPrefS "@@" l)))) 0 fi with
  | error e =>
    simp only [parseFileSection, hps] at h
    exact absurd h (by simp)
  | ok hs =>
    simp only [parseFileSection, hps, Except.ok.injEq] at h
    subst h
    exact ⟨_, 0, hps⟩

theorem parseFileSections_mem :
    ∀ (secs : List (String × List String)) (fi : Nat) (files : List FileDiff),
      parseFileSections secs fi = .ok files → ∀ f ∈ files,
      ∃ j sec, parseFileSection j sec = .ok f := by
  intro secs
  induction secs with
  | nil =>
    intro fi files hok f hmem
    simp only [parseFileSections, Except.ok.injEq] at hok
    subst hok
    simp at hmem
  | cons sec rest ih =>
    intro fi files hok f hmem
    cases hfs : parseFileSection fi sec with
    | error e =>
      simp only [parseFileSections, hfs] at hok
      exact absurd hok (by simp)
    | ok fd =>
      cases hr : parseFileSections rest (fi + 1) with
      | error e =>
        simp only [parseFileSections, hfs, hr] at hok
        exact absurd hok (by simp)
      | ok fds =>
        simp only [parseFileSections, hfs, hr, Except.ok.injEq] at hok
        subst hok
        rcases List.mem_cons.mp hmem with heq | hmem'
        · subst heq
          exact ⟨fi, sec, hfs⟩
        · exact ih (fi + 1) fds hr f hmem'

theorem parse_hunk_origin (text : String) (files : List FileDiff)
    (h : parse text = .ok files) :
    ∀ f ∈ files, ∀ hk ∈ f.chunks,
      ∃ body, parseHunkBody body hk.oldStart hk.newStart hk.oldCount hk.newCount 1 =
        .ok hk.changes := by
  intro f hf hk hhk
  obtain ⟨j, sec, hsec⟩ := parseFileSections_mem _ _ _ h f hf
  obtain ⟨secs, hi, hhs⟩ := parseFileSection_chunks j sec f hsec
  exact parseHunkSections_mem secs hi j f.chunks hhs hk hhk

theorem lineHead_of_headValid_false (l : String) (h : headValid l = false) :
    lineHead l = .bad := by
  cases hl : lineHead l <;> simp [headValid, hl] at h ⊢

/-- The concrete scenario of spec §8, scenario 1: header `@@ -10,3 +10,4 @@`
with body ` foo`, `-bar`, `+baz`, `+qux`, ` end`. -/
def diffC1 : String :=
  "diff --git a/f b/f\n--- a/f\n+++ b/f\n@@ -10,3 +10,4 @@\n foo\n-bar\n+baz\n+qux\n end\n"

/-- C1 (counterexample): on the claim's own concrete scenario the final
context line resolves to `oldLine = 12` / `newLine = 13`, not the claimed
`oldLine = 13` / `newLine = 14` — the claimed values are the post-increment
cursor values, not the values assigned to the line. -/
theorem c1_counterexample :
    parse diffC1 =
      .ok [⟨"f", "f", [⟨10, 3, 10, 4,
        [.context "foo" 10 10, .deletion "bar" 11, .addition "baz" 11,
         .addition "qux" 12, .context "end" 12 13]⟩]⟩] ∧
    LineChange.context "end" 12 13 ≠ LineChange.context "end" 13 14 :=
  ⟨by decide, by decide⟩

/-- C1 (amended): with cursors initialized to `oldStart`/`newStart`, a
space line yields a `context` change carrying both cursors and increments
both; `+` yields an `addition` carrying only the new cursor and
increments only it; `-` yields a `deletion` carrying only the old cursor
and increments only it; and on the concrete scenario the parse yields the
deletion at oldLine 11, additions at newLine 11 and 12, and context lines
at 10/10 and 12/13 (not 13/14 as originally claimed). -/
theorem c1_amended :
    (∀ (cs : List Char) (rest : List String) (oc nc a b off : Nat),
        parseHunkBody (String.mk (' ' :: cs) :: rest) oc nc (a + 1) (b + 1) off =
          (parseHunkBody rest (oc + 1) (nc + 1) a b (off + 1)).map
            (fun r => .context ⟨cs⟩ oc nc :: r)) ∧
    (∀ (cs : List Char) (rest : List String) (oc nc a b off : Nat),
        parseHunkBody (String.mk ('+' :: cs) :: rest) oc nc a (b + 1) off =
          (parseHunkBody rest oc (nc + 1) a b (off + 1)).map
            (fun r => .addition ⟨cs⟩ nc :: r)) ∧
    (∀ (cs : List Char) (rest : List String) (oc nc a b off : Nat),
        parseHunkBody (String.mk ('-' :: cs) :: rest) oc nc (a + 1) b off =
          (parseHunkBody rest (oc + 1) nc a b (off + 1)).map
            (fun r => .deletion ⟨cs⟩ oc :: r)) ∧
    (∀ (header : String) (body : List String) (hi fi os ocnt ns ncnt : Nat)
        (chs : List LineChange),
        parseHunkHeader header = some (os, ocnt, ns, ncnt) →
        parseHunkBody body os ns ocnt ncnt 1 = .ok chs →
        parseHunkSections [(header, body)] hi fi =
          .ok [⟨os, ocnt, ns, ncnt, chs⟩]) ∧
    parse diffC1 =
      .ok [⟨"f", "f", [⟨10, 3, 10, 4,
        [.context "foo" 10 10, .deletion "bar" 11, .addition "baz" 11,
         .addition "qux" 12, .context "end" 12 13]⟩]⟩] := by
  refine ⟨?_, ?_, ?_, ?_, by decide⟩
  · intro cs rest oc nc a b off
    rfl
  · intro cs rest oc nc a b off
    rfl
  · intro cs rest oc nc a b off
    rfl
  · intro header body hi fi os ocnt ns ncnt chs hh hb
    simp [parseHunkSections, hh, hb]

/-- Witness for C1 (amended): the fourth conjunct applied to a concrete
header and body. -/
theorem c1_amended_witness :
    parseHunkHeader "@@ -5,1 +7,2 @@" = some (5, 1, 7, 2) ∧
    parseHunkBody ["-x", "+y", "+z"] 5 7 1 2 1 =
      .ok [.deletion "x" 5, .addition "y" 7, .addition "z" 8] ∧
    parseHunkSections [("@@ -5,1 +7,2 @@", ["-x", "+y", "+z"])] 0 0 =
      .ok [⟨5, 1, 7, 2, [.deletion "x" 5, .addition "y" 7, .addition "z" 8]⟩] :=
  ⟨by decide, by decide,
    c1_amended.2.2.2.1 "@@ -5,1 +7,2 @@" ["-x", "+y", "+z"] 0 0 5 1 7 2
      [.deletion "x" 5, .addition "y" 7, .addition "z" 8]
      (by decide) (by decide)⟩

/-- C2: the mapper's loop emits, preserving file order and within-file,
within-hunk line order, exactly one `RIGHT` comment at `newLine` with a
suggestion body per addition, exactly one `LEFT` comment at `oldLine`
with empty body per deletion, and nothing for context lines, over the
non-excluded files. -/
theorem c2_per_change_mapping (files : List FileDiff) :
    postComments files =
      (files.filter (fun f => decide (f.toPath ≠ NULL_PATH))).flatMap
        (fun f => f.chunks.flatMap (fun ch => ch.changes.filterMap (fun c =>
          match c with
          | .addition content newLine =>
            some ⟨filePath f, newLine, Side.RIGHT, suggestionBody content⟩
          | .deletion _ oldLine => some ⟨filePath f, oldLine, Side.LEFT, ""⟩
          | .context _ _ _ => none))) := by
  rw [postComments_eq]
  rfl

/-- C3: a `FileDiff` whose `toPath` is the null-path sentinel contributes
zero comments whatever its hunks, and a `FileDiff` with zero hunks
likewise contributes zero comments. -/
theorem c3_exclusions (pre post : List FileDiff) (f : FileDiff) :
    (f.toPath = NULL_PATH →
      postComments (pre ++ f :: post) = postComments (pre ++ post)) ∧
    (f.chunks = [] →
      postComments (pre ++ f :: post) = postComments (pre ++ post)) := by
  constructor
  · intro h
    rw [postComments_eq, postComments_eq]
    simp [List.filter_append, List.filter_cons, h]
  · intro h
    rw [postComments_eq, postComments_eq]
    have hf : specFileComments f = [] := by simp [specFileComments, h]
    by_cases ht : f.toPath = NULL_PATH
    · simp [List.filter_append, List.filter_cons, ht]
    · simp [List.filter_append, List.filter_cons, ht, hf]

/-- Witness for C3: both exclusions applied to concrete files. -/
theorem c3_witness :
    ((⟨"gone.txt", "/dev/null", [⟨1, 1, 0, 0, [.deletion "x" 1]⟩]⟩ : FileDiff).toPath =
        NULL_PATH ∧
      postComments ([⟨"a", "a", [⟨1, 0, 1, 1, [.addition "hi" 1]⟩]⟩] ++
          (⟨"gone.txt", "/dev/null", [⟨1, 1, 0, 0, [.deletion "x" 1]⟩]⟩ : FileDiff) :: []) =
        postComments ([⟨"a", "a", [⟨1, 0, 1, 1, [.addition "hi" 1]⟩]⟩] ++ [])) ∧
    ((⟨"bin", "bin", []⟩ : FileDiff).chunks = [] ∧
      postComments ([⟨"a", "a", [⟨1, 0, 1, 1, [.addition "hi" 1]⟩]⟩] ++
          (⟨"bin", "bin", []⟩ : FileDiff) :: []) =
        postComments ([⟨"a", "a", [⟨1, 0, 1, 1, [.addition "hi" 1]⟩]⟩] ++ [])) :=
  ⟨⟨by decide,
    (c3_exclusions [⟨"a", "a", [⟨1, 0, 1, 1, [.addition "hi" 1]⟩]⟩] []
      ⟨"gone.txt", "/dev/null", [⟨1, 1, 0, 0, [.deletion "x" 1]⟩]⟩).1 (by decide)⟩,
   ⟨by decide,
    (c3_exclusions [⟨"a", "a", [⟨1, 0, 1, 1, [.addition "hi" 1]⟩]⟩] []
      ⟨"bin", "bin", []⟩).2 (by decide)⟩⟩

/-- C4: for every hunk produced by the parser, the number of changes of
kind context or deletion equals the hunk's `oldCount`, and the number of
kind context or addition equals its `newCount`. -/
theorem c4_hunk_counts (text : String) (files : List FileDiff)
    (h : parse text = .ok files) (f : FileDiff) (hf : f ∈ files)
    (hk : Hunk) (hhk : hk ∈ f.chunks) :
    hk.changes.countP
        (fun c => decide (c.kind = Kind.Context ∨ c.kind = Kind.Deletion)) =
      hk.oldCount ∧
    hk.changes.countP
        (fun c => decide (c.kind = Kind.Context ∨ c.kind = Kind.Addition)) =
      hk.newCount := by
  obtain ⟨body, hb⟩ := parse_hunk_origin text files h f hf hk hhk
  exact parseHunkBody_counts body _ _ _ _ _ _ hb

/-- Witness for C4: the counts checked on a concrete parsed diff. -/
theorem c4_witness :
    parse "diff --git a/g b/g\n--- a/g\n+++ b/g\n@@ -1,2 +1,1 @@\n-x\n y\n" =
      .ok [⟨"g", "g", [⟨1, 2, 1, 1, [.deletion "x" 1, .context "y" 2 1]⟩]⟩] ∧
    ([.deletion "x" 1, .context "y" 2 1] : List LineChange).countP
        (fun c => decide (c.kind = Kind.Context ∨ c.kind = Kind.Deletion)) = 2 ∧
    ([.deletion "x" 1, .context "y" 2 1] : List LineChange).countP
        (fun c => decide (c.kind = Kind.Context ∨ c.kind = Kind.Addition)) = 1 := by
  refine ⟨by decide, ?_⟩
  have h := c4_hunk_counts
    "diff --git a/g b/g\n--- a/g\n+++ b/g\n@@ -1,2 +1,1 @@\n-x\n y\n"
    [⟨"g", "g", [⟨1, 2, 1, 1, [.deletion "x" 1, .context "y" 2 1]⟩]⟩]
    (by decide)
    ⟨"g", "g", [⟨1, 2, 1, 1, [.deletion "x" 1, .context "y" 2 1]⟩]⟩
    (by decide)
    ⟨1, 2, 1, 1, [.deletion "x" 1, .context "y" 2 1]⟩
    (by decide)
  exact h

theorem specComment_path (p : String) (ch : LineChange) (c : ReviewComment)
    (h : specComment p ch = some c) : c.path = p := by
  cases ch with
  | context content o n => simp [specComment] at h
  | addition content n =>
    simp only [specComment, Option.some.injEq] at h
    rw [← h]
  | deletion content o =>
    simp only [specComment, Option.some.injEq] at h
    rw [← h]

theorem specFileComments_path (f : FileDiff) (c : ReviewComment)
    (h : c ∈ specFileComments f) : c.path = filePath f := by
  simp only [specFileComments, List.mem_flatMap, List.mem_filterMap] at h
  obtain ⟨ch, -, lc, -, hsc⟩ := h
  exact specComment_path _ _ _ hsc

/-- C5: every comment emitted for a non-excluded file carries the file's
`toPath` when it is present (non-empty), otherwise its `fromPath`; the
new path is always preferred when available. -/
theorem c5_path_resolution (f : FileDiff) (c : ReviewComment)
    (hskip : f.toPath ≠ NULL_PATH) (hmem : c ∈ postComments [f]) :
    c.path = (if f.toPath = "" then f.fromPath else f.toPath) ∧
    (f.toPath ≠ "" → c.path = f.toPath) := by
  rw [postComments_eq] at hmem
  have hp : c.path = filePath f := by
    apply specFileComments_path
    revert hmem
    simp [List.filter_cons, hskip]
  constructor
  · rw [hp]; rfl
  · intro hne
    rw [hp, filePath, if_neg hne]

/-- Witness for C5: the path of a concrete comment produced for a
renamed file. -/
theorem c5_witness :
    (⟨"old.txt", "new.txt", [⟨1, 0, 1, 1, [.addition "hi" 1]⟩]⟩ : FileDiff).toPath ≠
        NULL_PATH ∧
    (⟨"new.txt", 1, Side.RIGHT, suggestionBody "hi"⟩ : ReviewComment) ∈
      postComments [⟨"old.txt", "new.txt", [⟨1, 0, 1, 1, [.addition "hi" 1]⟩]⟩] ∧
    (⟨"new.txt", 1, Side.RIGHT, suggestionBody "hi"⟩ : ReviewComment).path =
      "new.txt" :=
  ⟨by decide, by decide,
    ((c5_path_resolution
      ⟨"old.txt", "new.txt", [⟨1, 0, 1, 1, [.addition "hi" 1]⟩]⟩
      ⟨"new.txt", 1, Side.RIGHT, suggestionBody "hi"⟩
      (by decide) (by decide)).2 (by decide))⟩

/-- C6 (counterexample): a diff whose hunk header parses and whose only
hunk-body line starts with a valid marker still fails, because the body
ends before the header's counts `-1,2 +1,2` are consumed — a failure mode
outside the claim's "exactly when" list. -/
theorem c6_counterexample :
    parse "diff --git a/f b/f\n@@ -1,2 +1,2 @@\n a\n" = .error ⟨"", 0, 0, 2⟩ ∧
    parseHunkHeader "@@ -1,2 +1,2 @@" = some (1, 2, 1, 2) ∧
    headValid " a" = true :=
  ⟨by decide, by decide, by decide⟩

/-- C6 (amended): the parser accepts the empty diff with an empty file
sequence; a hunk body parses successfully exactly when every line starts
with a valid marker and the lines consume exactly `oldCount` old-side and
`newCount` new-side lines (so it fails on an invalid leading character
and also on counts inconsistent with the body); a line with an invalid
leading character fails with an error carrying that line and its offset;
an unparseable hunk header fails with an error carrying the header and
its position; and a backslash (no-newline) line is accepted, produces no
`LineChange`, and leaves both cursors untouched. -/
theorem c6_amended :
    parse "" = .ok [] ∧
    (∀ (lines : List String) (oc nc a b off : Nat),
        (∃ chs, parseHunkBody lines oc nc a b off = .ok chs) ↔
        (lines.all headValid = true ∧ (lines.map oldUse).sum = a ∧
          (lines.map newUse).sum = b)) ∧
    (∀ (l : String) (rest : List String) (oc nc a b off : Nat),
        headValid l = false →
        parseHunkBody (l :: rest) oc nc a b off = .error ⟨l, off⟩) ∧
    (∀ (header : String) (body : List String)
        (rest : List (String × List String)) (hi fi : Nat),
        parseHunkHeader header = none →
        parseHunkSections ((header, body) :: rest) hi fi =
          .error ⟨header, fi, hi, 0⟩) ∧
    (∀ (cs : List Char) (rest : List String) (oc nc a b off : Nat),
        parseHunkBody (String.mk ('\\' :: cs) :: rest) oc nc a b off =
          parseHunkBody rest oc nc a b (off + 1)) := by
  refine ⟨by decide, parseHunkBody_ok_iff, ?_, ?_, ?_⟩
  · intro l rest oc nc a b off h
    have hl := lineHead_of_headValid_false l h
    simp [parseHunkBody, hl]
  · intro header body rest hi fi h
    simp [parseHunkSections, h]
  · intro cs rest oc nc a b off
    rfl

/-- Witness for C6 (amended): the failing conjuncts applied at concrete
inputs. -/
theorem c6_witness :
    (headValid "~oops" = false ∧
      parseHunkBody ["~oops"] 1 1 1 1 5 = .error ⟨"~oops", 5⟩) ∧
    (parseHunkHeader "@@ bad @@" = none ∧
      parseHunkSections [("@@ bad @@", [])] 2 3 = .error ⟨"@@ bad @@", 3, 2, 0⟩) ∧
    (parseHunkBody [" k"] 4 9 1 1 0 = .ok [.context "k" 4 9] ∧
      (([" k"] : List String).all headValid = true ∧
        (([" k"] : List String).map oldUse).sum = 1 ∧
        (([" k"] : List String).map newUse).sum = 1)) :=
  ⟨⟨by decide, c6_amended.2.2.1 "~oops" [] 1 1 1 1 5 (by decide)⟩,
   ⟨by decide, c6_amended.2.2.2.1 "@@ bad @@" [] [] 2 3 (by decide)⟩,
   ⟨by decide, (c6_amended.2.1 [" k"] 4 9 1 1 0).mp ⟨[.context "k" 4 9], by decide⟩⟩⟩

/-- C7: an empty produced comment sequence yields the distinct non-error
`skipped` outcome — both on a blank diff and on a diff producing no
addition or deletion comments — which differs from the posted and failed
outcomes and submits nothing to the review API. -/
theorem c7_empty_result :
    (∀ (text : String) (msg : Option String), isBlank text = true →
        postReview text msg = .skipped "No changes to comment on") ∧
    (∀ (text : String) (msg : Option String) (files : List FileDiff),
        isBlank text = false → parse text = .ok files →
        postComments files = [] →
        postReview text msg = .skipped "No additions or deletions to comment on") ∧
    (∀ (s b : String) (cs : List ReviewComment),
        ReviewOutcome.skipped s ≠ .posted b cs) ∧
    (∀ (s : String) (e : MalformedDiff), ReviewOutcome.skipped s ≠ .failed e) ∧
    (∀ s : String, (ReviewOutcome.skipped s).submits = false) := by
  refine ⟨?_, ?_, ?_, ?_, ?_⟩
  · intro text msg h
    simp [postReview, h]
  · intro text msg files hb hp hc
    simp [postReview, hb, hp, hc]
  · intro s b cs h
    exact ReviewOutcome.noConfusion h
  · intro s e h
    exact ReviewOutcome.noConfusion h
  · intro s
    rfl

/-- Witness for C7: both skip paths at concrete inputs. -/
theorem c7_witness :
    (isBlank "  \n" = true ∧
      postReview "  \n" none = .skipped "No changes to comment on") ∧
    (isBlank "diff --git a/f b/f\n--- a/f\n+++ b/f\n@@ -1,1 +1,1 @@\n x\n" = false ∧
      parse "diff --git a/f b/f\n--- a/f\n+++ b/f\n@@ -1,1 +1,1 @@\n x\n" =
        .ok [⟨"f", "f", [⟨1, 1, 1, 1, [.context "x" 1 1]⟩]⟩] ∧
      postComments [⟨"f", "f", [⟨1, 1, 1, 1, [.context "x" 1 1]⟩]⟩] = [] ∧
      postReview "diff --git a/f b/f\n--- a/f\n+++ b/f\n@@ -1,1 +1,1 @@\n x\n" none =
        .skipped "No additions or deletions to comment on") :=
  ⟨⟨by decide, c7_empty_result.1 "  \n" none (by decide)⟩,
   ⟨by decide, by decide, by decide,
    c7_empty_result.2.1 "diff --git a/f b/f\n--- a/f\n+++ b/f\n@@ -1,1 +1,1 @@\n x\n"
      none [⟨"f", "f", [⟨1, 1, 1, 1, [.context "x" 1 1]⟩]⟩]
      (by decide) (by decide) (by decide)⟩⟩

/-- C8: within every hunk produced by the parser, the `oldLine` values of
the context and deletion entries are strictly increasing in sequence
order, and so are the `newLine` values of the context and addition
entries. -/
theorem c8_monotonicity (text : String) (files : List FileDiff)
    (h : parse text = .ok files) (f : FileDiff) (hf : f ∈ files)
    (hk : Hunk) (hhk : hk ∈ f.chunks) :
    List.Pairwise (· < ·) (hk.changes.filterMap LineChange.oldLine?) ∧
    List.Pairwise (· < ·) (hk.changes.filterMap LineChange.newLine?) := by
  obtain ⟨body, hb⟩ := parse_hunk_origin text files h f hf hk hhk
  obtain ⟨ho, hn⟩ := parseHunkBody_ok_ranges body _ _ _ _ _ _ hb
  constructor
  · rw [ho]
    exact List.pairwise_lt_range' _ _
  · rw [hn]
    exact List.pairwise_lt_range' _ _

/-- Witness for C8: the strict increase checked on a concrete parsed
diff. -/
theorem c8_witness :
    parse "diff --git a/h b/h\n--- a/h\n+++ b/h\n@@ -3,2 +3,3 @@\n p\n-q\n+r\n+s\n" =
      .ok [⟨"h", "h", [⟨3, 2, 3, 3,
        [.context "p" 3 3, .deletion "q" 4, .addition "r" 4, .addition "s" 5]⟩]⟩] ∧
    List.Pairwise (· < ·)
      (([.context "p" 3 3, .deletion "q" 4, .addition "r" 4, .addition "s" 5] :
        List LineChange).filterMap LineChange.oldLine?) ∧
    List.Pairwise (· < ·)
      (([.context "p" 3 3, .deletion "q" 4, .addition "r" 4, .addition "s" 5] :
        List LineChange).filterMap LineChange.newLine?) := by
  refine ⟨by decide, ?_⟩
  have h := c8_monotonicity
    "diff --git a/h b/h\n--- a/h\n+++ b/h\n@@ -3,2 +3,3 @@\n p\n-q\n+r\n+s\n"
    [⟨"h", "h", [⟨3, 2, 3, 3,
      [.context "p" 3 3, .deletion "q" 4, .addition "r" 4, .addition "s" 5]⟩]⟩]
    (by decide)
    ⟨"h", "h", [⟨3, 2, 3, 3,
      [.context "p" 3 3, .deletion "q" 4, .addition "r" 4, .addition "s" 5]⟩]⟩
    (by decide)
    ⟨3, 2, 3, 3,
      [.context "p" 3 3, .deletion "q" 4, .addition "r" 4, .addition "s" 5]⟩
    (by decide)
  exact h

/-- C9: the whole-file-deletion exclusion is an exact string comparison
of `toPath` with `'/dev/null'` — a file whose `toPath` equals the string
is skipped, any other `toPath` (including other null-device spellings) is
not skipped, and concretely a deleted-file section naming `nul` produces
a comment attached to the path `nul`. -/
theorem c9_exact_sentinel :
    (∀ (fp tp : String) (chunks : List Hunk), tp = "/dev/null" →
        postComments [⟨fp, tp, chunks⟩] = []) ∧
    (∀ (fp tp : String) (chunks : List Hunk), tp ≠ "/dev/null" →
        postComments [⟨fp, tp, chunks⟩] = specFileComments ⟨fp, tp, chunks⟩) ∧
    parse "diff --git a/old.txt b/old.txt\n--- a/old.txt\n+++ nul\n@@ -1,1 +0,0 @@\n-gone\n" =
      .ok [⟨"old.txt", "nul", [⟨1, 1, 0, 0, [.deletion "gone" 1]⟩]⟩] ∧
    postComments [⟨"old.txt", "nul", [⟨1, 1, 0, 0, [.deletion "gone" 1]⟩]⟩] =
      [⟨"nul", 1, Side.LEFT, ""⟩] := by
  refine ⟨?_, ?_, by decide, by decide⟩
  · intro fp tp chunks h
    rw [postComments_eq]
    simp [List.filter_cons, NULL_PATH, h]
  · intro fp tp chunks h
    rw [postComments_eq]
    simp [List.filter_cons, NULL_PATH, h]

/-- Witness for C9: both branches of the exclusion at concrete files. -/
theorem c9_witness :
    postComments [⟨"z.txt", "/dev/null", [⟨1, 1, 0, 0, [.deletion "x" 1]⟩]⟩] = [] ∧
    postComments [⟨"z.txt", "/dev/NULL", [⟨1, 1, 0, 0, [.deletion "x" 1]⟩]⟩] =
      specFileComments ⟨"z.txt", "/dev/NULL", [⟨1, 1, 0, 0, [.deletion "x" 1]⟩]⟩ :=
  ⟨c9_exact_sentinel.1 "z.txt" "/dev/null" [⟨1, 1, 0, 0, [.deletion "x" 1]⟩] (by decide),
   c9_exact_sentinel.2.1 "z.txt" "/dev/NULL" [⟨1, 1, 0, 0, [.deletion "x" 1]⟩] (by decide)⟩

/-- C10: an addition's comment body is exactly the fenced line
"```suggestion", a newline, the content with at most one leading `+`
removed, a newline, and "```" — no other transformation, so content
starting with `+` keeps all but the first, and backtick fences pass
through verbatim. -/
theorem c10_suggestion_body :
    (∀ content : String, suggestionBody content =
        "```suggestion\n" ++
          (if hasPrefS "+" content then String.mk (content.data.drop 1)
           else content) ++ "\n```") ∧
    (∀ (fp tp content : String) (n a b d e : Nat),
        tp ≠ NULL_PATH → tp ≠ "" →
        postComments [⟨fp, tp, [⟨a, b, d, e, [.addition content n]⟩]⟩] =
          [⟨tp, n, Side.RIGHT, suggestionBody content⟩]) ∧
    suggestionBody "++x" = "```suggestion\n+x\n```" ∧
    suggestionBody "x```y" = "```suggestion\nx```y\n```" ∧
    suggestionBody "plain" = "```suggestion\nplain\n```" := by
  refine ⟨?_, ?_, by decide, by decide, by decide⟩
  · intro content
    obtain ⟨d⟩ := content
    cases d with
    | nil => rfl
    | cons c cs =>
      by_cases hc : c = '+'
      · subst hc
        rfl
      · have h1 : hasPrefS "+" ⟨c :: cs⟩ = false := by
          simp [hasPrefS, dropPref, hc]
        rw [h1]
        simp only [suggestionBody, if_false, Bool.false_eq_true]
        congr 1
        congr 1
        split
        · next cs2 heq =>
          rw [List.cons.injEq] at heq
          exact absurd heq.1 hc
        · rfl
  · intro fp tp content n a b d e ht he
    rw [postComments_eq]
    simp [List.filter_cons, ht, specFileComments, specComment, filePath, he]

/-- Witness for C10: the mapper-level body equation at a concrete
addition whose content starts with a plus. -/
theorem c10_witness :
    ("n.txt" : String) ≠ NULL_PATH ∧ ("n.txt" : String) ≠ "" ∧
    postComments [⟨"o.txt", "n.txt", [⟨7, 0, 7, 1, [.addition "+kept" 7]⟩]⟩] =
      [⟨"n.txt", 7, Side.RIGHT, suggestionBody "+kept"⟩] :=
  ⟨by decide, by decide,
    c10_suggestion_body.2.1 "o.txt" "n.txt" "+kept" 7 7 0 7 1
      (by decide) (by decide)⟩
